import Mathlib

/-!
# Verification of the alignment-and-consensus core of `transcribe_consensus.py`

This file gives a shallow embedding of the token-alignment and consensus
functions of the repository (`align_two`, `consensus_two`, `consensus_three`),
including the `difflib.SequenceMatcher` machinery they rely on
(`__chain_b`'s `b2j` table with autojunk, `find_longest_match`,
`get_matching_blocks`, `get_opcodes`), and proves the specification's
claims about them.

Tokens are drawn from an arbitrary type `α` with decidable equality; the gap
sentinel (Python's `None`) is modelled by `Option.none`, so an aligned
sequence is a `List (Option α)` while raw input sequences are `List α`
(which makes them gap-free by construction, as the specification's data
model requires: the sentinel "is not a valid Token value").

Python `while` loops are embedded as fuel-indexed structural recursion; each
use passes fuel that provably dominates the loop's iteration count, so the
embedded loop reaches the same fixpoint the Python loop does.
-/

namespace TranscribeConsensus

variable {α : Type} [DecidableEq α]

/-! ## The `b2j` table of `difflib.SequenceMatcher.__chain_b`

`b2j` maps an element to the ascending list of its indices in `b`.
`SequenceMatcher(None, seq1, seq2)` is constructed with `isjunk=None` and
`autojunk=True`, so `bjunk` is empty and "popular" elements (appearing more
than `len(b)//100 + 1` times when `len(b) >= 200`) are purged from `b2j`. -/

/-- Ascending list of indices `j` with `b[j] = x` (the `b2j` entry before the
autojunk purge). -/
def indicesOf (b : List α) (x : α) : List Nat :=
  (List.range b.length).filter fun j => decide (b[j]? = some x)

/-- `x` is "popular" in `b`: purged from `b2j` by autojunk
(`n >= 200` and `len(idxs) > n // 100 + 1`). -/
def popularTok (b : List α) (x : α) : Prop :=
  200 ≤ b.length ∧ b.length / 100 + 1 < b.count x

instance (b : List α) (x : α) : Decidable (popularTok b x) := by
  unfold popularTok; infer_instance

/-- `b2j.get(x, [])` after the autojunk purge. -/
def b2j (b : List α) (x : α) : List Nat :=
  if popularTok b x then [] else indicesOf b x

/-- The junk set for `b`: `SequenceMatcher(None, _, _)` passes `isjunk=None`,
so `bjunk` is the empty set. -/
def bjunk (_b : List α) : α → Bool := fun _ => false

/-! ## `find_longest_match` -/

/-- The inner loop of `find_longest_match`'s first pass, for a fixed `i`:
`for j in b2j.get(a[i], []): ... k = newj2len[j] = j2len.get(j-1, 0) + 1; ...`.
The dict `newj2len` is modelled as a total function that is `0` where the
dict has no entry (only `.get(·, 0)` is ever used on it). -/
def innerLoop (old : Nat → Nat) (i : Nat) :
    List Nat → (Nat → Nat) → Nat × Nat × Nat → (Nat → Nat) × (Nat × Nat × Nat)
  | [], newj2len, best => (newj2len, best)
  | j :: js, newj2len, best =>
    let k := (if j = 0 then 0 else old (j - 1)) + 1
    innerLoop old i js (fun q => if q = j then k else newj2len q)
      (if best.2.2 < k then (i + 1 - k, j + 1 - k, k) else best)

/-- The list of `j` actually processed by the inner loop at step `i`:
`b2j.get(a[i], [])`, skipping `j < blo` (`continue`) and stopping at the
first `j >= bhi` (`break`; `b2j` lists are ascending). -/
def jsAt (a b : List α) (blo bhi i : Nat) : List Nat :=
  match a[i]? with
  | some x => ((b2j b x).takeWhile fun j => decide (j < bhi)).filter fun j => decide (blo ≤ j)
  | none => []

/-- The outer loop of `find_longest_match`'s first pass over `i in range(alo, ahi)`,
threading `j2len` and `(besti, bestj, bestsize)`. -/
def outerLoop (a b : List α) (blo bhi : Nat) :
    List Nat → (Nat → Nat) → Nat × Nat × Nat → Nat × Nat × Nat
  | [], _, best => best
  | i :: is, j2len, best =>
    let s := innerLoop j2len i (jsAt a b blo bhi i) (fun _ => 0) best
    outerLoop a b blo bhi is s.1 s.2

/-- One of the two lower-end extension `while` loops of `find_longest_match`:
`while besti > alo and bestj > blo and isbjunk(b[bestj-1]) == want and
a[besti-1] == b[bestj-1]: besti, bestj, bestsize = besti-1, bestj-1, bestsize+1`.
(`want = false` is the non-junk loop, `want = true` the junk loop.) -/
def extendLo (a b : List α) (alo blo : Nat) (want : Bool) :
    Nat → Nat × Nat × Nat → Nat × Nat × Nat
  | 0, p => p
  | fuel + 1, (bi, bj, bs) =>
    if decide (alo < bi) && decide (blo < bj) &&
        ((b[bj - 1]?).any fun x => bjunk b x == want) &&
        decide (a[bi - 1]? = b[bj - 1]?) then
      extendLo a b alo blo want fuel (bi - 1, bj - 1, bs + 1)
    else (bi, bj, bs)

/-- One of the two upper-end extension `while` loops of `find_longest_match`:
`while besti+bestsize < ahi and bestj+bestsize < bhi and
isbjunk(b[bestj+bestsize]) == want and a[besti+bestsize] == b[bestj+bestsize]:
bestsize += 1`. -/
def extendHi (a b : List α) (ahi bhi : Nat) (want : Bool) :
    Nat → Nat × Nat × Nat → Nat × Nat × Nat
  | 0, p => p
  | fuel + 1, (bi, bj, bs) =>
    if decide (bi + bs < ahi) && decide (bj + bs < bhi) &&
        ((b[bj + bs]?).any fun x => bjunk b x == want) &&
        decide (a[bi + bs]? = b[bj + bs]?) then
      extendHi a b ahi bhi want fuel (bi, bj, bs + 1)
    else (bi, bj, bs)

/-- `SequenceMatcher.find_longest_match(alo, ahi, blo, bhi)`: the dynamic
programming first pass, then the four extension loops in source order
(non-junk lower, non-junk upper, junk lower, junk upper).  The `while`
loops get fuel that dominates their iteration counts (`besti - alo ≤ besti`
iterations for a lower loop, `ahi - (besti+bestsize) ≤ ahi` for an upper). -/
def find_longest_match (a b : List α) (alo ahi blo bhi : Nat) : Nat × Nat × Nat :=
  let p0 := outerLoop a b blo bhi (List.range' alo (ahi - alo)) (fun _ => 0) (alo, blo, 0)
  let p1 := extendLo a b alo blo false p0.1 p0
  let p2 := extendHi a b ahi bhi false ahi p1
  let p3 := extendLo a b alo blo true p2.1 p2
  extendHi a b ahi bhi true ahi p3

/-! ## `get_matching_blocks` -/

/-- The `while queue:` loop of `get_matching_blocks`.  Python appends to and
pops from the end of `queue`; the Lean list keeps the queue reversed, so
`pop` is the head and the two pushes cons the left window, then the right
window (hence the right window, pushed last, is popped first). -/
def gmbLoop (a b : List α) :
    Nat → List (Nat × Nat × Nat × Nat) → List (Nat × Nat × Nat) → List (Nat × Nat × Nat)
  | 0, _, acc => acc
  | _ + 1, [], acc => acc
  | fuel + 1, (alo, ahi, blo, bhi) :: rest, acc =>
    let m := find_longest_match a b alo ahi blo bhi
    let i := m.1; let j := m.2.1; let k := m.2.2
    if k ≠ 0 then
      let q1 := if alo < i ∧ blo < j then [(alo, i, blo, j)] else []
      let q2 := if i + k < ahi ∧ j + k < bhi then [(i + k, ahi, j + k, bhi)] else []
      gmbLoop a b fuel (q2 ++ q1 ++ rest) (acc ++ [(i, j, k)])
    else
      gmbLoop a b fuel rest acc

/-- Lexicographic order on the `(i, j, size)` triples — `matching_blocks.sort()`
sorts Python tuples lexicographically. -/
def blockLE (x y : Nat × Nat × Nat) : Prop :=
  x.1 < y.1 ∨ (x.1 = y.1 ∧ (x.2.1 < y.2.1 ∨ (x.2.1 = y.2.1 ∧ x.2.2 ≤ y.2.2)))

instance : DecidableRel blockLE := fun x y => by unfold blockLE; infer_instance

instance : IsTotal (Nat × Nat × Nat) blockLE := ⟨by intro x y; unfold blockLE; omega⟩

instance : IsTrans (Nat × Nat × Nat) blockLE := ⟨by intro x y z; unfold blockLE; omega⟩

/-- The adjacency-collapsing loop of `get_matching_blocks` (the
`for i2, j2, k2 in matching_blocks:` fold producing `non_adjacent`),
with the current block `(i1, j1, k1)` as accumulator. -/
def nonAdjacentLoop : Nat × Nat × Nat → List (Nat × Nat × Nat) → List (Nat × Nat × Nat)
  | (i1, j1, k1), [] => if k1 ≠ 0 then [(i1, j1, k1)] else []
  | (i1, j1, k1), (i2, j2, k2) :: rest =>
    if i1 + k1 = i2 ∧ j1 + k1 = j2 then
      nonAdjacentLoop (i1, j1, k1 + k2) rest
    else
      (if k1 ≠ 0 then [(i1, j1, k1)] else []) ++ nonAdjacentLoop (i2, j2, k2) rest

/-- `SequenceMatcher.get_matching_blocks()`: run the queue loop (the measure
`Σ (width + height + 1)` over queued windows starts at `la + lb + 1` and
strictly decreases, so that fuel suffices), sort the collected blocks,
collapse adjacent blocks, and append the `(la, lb, 0)` sentinel. -/
def get_matching_blocks (a b : List α) : List (Nat × Nat × Nat) :=
  let la := a.length; let lb := b.length
  let mbs := gmbLoop a b (la + lb + 1) [(0, la, 0, lb)] []
  nonAdjacentLoop (0, 0, 0) (mbs.insertionSort blockLE) ++ [(la, lb, 0)]

/-! ## `get_opcodes` -/

/-- Opcode tags. -/
inductive Tag : Type
  | equal
  | replace
  | delete
  | insert
deriving DecidableEq, Repr

/-- The `for ai, bj, size in self.get_matching_blocks():` loop of
`get_opcodes`, carrying the positions `i, j`. -/
def opcodesLoop : Nat → Nat → List (Nat × Nat × Nat) → List (Tag × Nat × Nat × Nat × Nat)
  | _, _, [] => []
  | i, j, (ai, bj, size) :: rest =>
    (if i < ai ∧ j < bj then [(Tag.replace, i, ai, j, bj)]
     else if i < ai then [(Tag.delete, i, ai, j, bj)]
     else if j < bj then [(Tag.insert, i, ai, j, bj)]
     else [])
    ++ (if size ≠ 0 then [(Tag.equal, ai, ai + size, bj, bj + size)] else [])
    ++ opcodesLoop (ai + size) (bj + size) rest

/-- `SequenceMatcher.get_opcodes()`. -/
def get_opcodes (a b : List α) : List (Tag × Nat × Nat × Nat × Nat) :=
  opcodesLoop 0 0 (get_matching_blocks a b)

/-! ## `align_two` -/

/-- Python slice `l[i1:i2]`. -/
def slice (l : List α) (i1 i2 : Nat) : List α :=
  (l.drop i1).take (i2 - i1)

/-- The two aligned segments one opcode contributes
(the body of `align_two`'s `for tag, i1, i2, j1, j2 in sm.get_opcodes():`):
`equal` copies both slices; `replace` pads the shorter slice with `None`
up to the longer's length; `delete`/`insert` emit one slice against `None`s. -/
def alignOp (seq1 seq2 : List α) : Tag × Nat × Nat × Nat × Nat → List (Option α) × List (Option α)
  | (Tag.equal, i1, i2, j1, j2) =>
    ((slice seq1 i1 i2).map some, (slice seq2 j1 j2).map some)
  | (Tag.replace, i1, i2, j1, j2) =>
    let tokens1 := (slice seq1 i1 i2).map some
    let tokens2 := (slice seq2 j1 j2).map some
    let L := max tokens1.length tokens2.length
    (tokens1 ++ List.replicate (L - tokens1.length) none,
     tokens2 ++ List.replicate (L - tokens2.length) none)
  | (Tag.delete, i1, i2, _, _) =>
    ((slice seq1 i1 i2).map some, List.replicate (i2 - i1) none)
  | (Tag.insert, _, _, j1, j2) =>
    (List.replicate (j2 - j1) none, (slice seq2 j1 j2).map some)

/-- The opcode loop of `align_two`, extending `aligned1` and `aligned2`. -/
def alignLoop (seq1 seq2 : List α) :
    List (Tag × Nat × Nat × Nat × Nat) → List (Option α) × List (Option α)
  | [] => ([], [])
  | op :: ops =>
    let h := alignOp seq1 seq2 op
    let t := alignLoop seq1 seq2 ops
    (h.1 ++ t.1, h.2 ++ t.2)

/-- `align_two(seq1, seq2)`: aligned token sequences of equal length,
padded with the gap sentinel (`none`) where tokens are missing. -/
def align_two (seq1 seq2 : List α) : List (Option α) × List (Option α) :=
  alignLoop seq1 seq2 (get_opcodes seq1 seq2)

/-! ## `consensus_two` and `consensus_three` -/

/-- The `for idx, (t1, t2) in enumerate(zip(aligned1, aligned2)):` loop of
`consensus_two` (the emitted tokens; the index is used only by the
diagnostic `print`, so it is not threaded here). -/
def consensusLoop : List (Option α × Option α) → List α
  | [] => []
  | (none, none) :: rest => consensusLoop rest
  | (none, some t2) :: rest => t2 :: consensusLoop rest
  | (some t1, none) :: rest => t1 :: consensusLoop rest
  | (some t1, some t2) :: rest =>
    if t1 = t2 then t1 :: consensusLoop rest else t1 :: consensusLoop rest

/-- `consensus_two(seq1, seq2)`. -/
def consensus_two (seq1 seq2 : List α) : List α :=
  consensusLoop ((align_two seq1 seq2).1.zip (align_two seq1 seq2).2)

/-- The diagnostic events `consensus_two` prints: one
`Column {idx} mismatch: {t1} vs {t2}; choosing {t1}` event per column
holding two distinct tokens, modelled as the list of
`(column index, left token, right token)` triples, in column order. -/
def mismatchLoop : Nat → List (Option α × Option α) → List (Nat × α × α)
  | _, [] => []
  | idx, (some t1, some t2) :: rest =>
    if t1 = t2 then mismatchLoop (idx + 1) rest
    else (idx, t1, t2) :: mismatchLoop (idx + 1) rest
  | idx, (_, _) :: rest => mismatchLoop (idx + 1) rest

/-- The mismatch diagnostics surfaced by `consensus_two(seq1, seq2)`. -/
def mismatchEvents (seq1 seq2 : List α) : List (Nat × α × α) :=
  mismatchLoop 0 ((align_two seq1 seq2).1.zip (align_two seq1 seq2).2)

/-- `consensus_three(seq1, seq2, seq3)`: merge the first two, then merge
that result with the third. -/
def consensus_three (seq1 seq2 seq3 : List α) : List α :=
  consensus_two (consensus_two seq1 seq2) seq3


/-! ## Basic facts about slices and `b2j` -/

theorem slice_self (l : List α) (i : Nat) : slice l i i = [] := by
  simp [slice]

theorem slice_zero_length (l : List α) : slice l 0 l.length = l := by
  simp [slice]

theorem slice_length (l : List α) {i1 i2 : Nat} (h2 : i2 ≤ l.length) :
    (slice l i1 i2).length = i2 - i1 := by
  simp only [slice, List.length_take, List.length_drop]
  omega

theorem slice_append (l : List α) {i m n : Nat} (him : i ≤ m) (hmn : m ≤ n) :
    slice l i m ++ slice l m n = slice l i n := by
  simp only [slice]
  have h1 : n - i = (m - i) + (n - m) := by omega
  rw [h1, List.take_add, List.drop_drop]
  have h2 : i + (m - i) = m := by omega
  rw [h2]

theorem mem_indicesOf {b : List α} {x : α} {j : Nat} (h : j ∈ indicesOf b x) :
    j < b.length ∧ b[j]? = some x := by
  unfold indicesOf at h
  rw [List.mem_filter] at h
  refine ⟨List.mem_range.mp h.1, of_decide_eq_true h.2⟩

theorem indicesOf_pairwise (b : List α) (x : α) :
    (indicesOf b x).Pairwise (· < ·) :=
  (List.pairwise_lt_range b.length).filter _

theorem mem_b2j {b : List α} {x : α} {j : Nat} (h : j ∈ b2j b x) :
    j < b.length ∧ b[j]? = some x := by
  unfold b2j at h
  split at h
  · simp at h
  · exact mem_indicesOf h

theorem b2j_pairwise (b : List α) (x : α) : (b2j b x).Pairwise (· < ·) := by
  unfold b2j
  split
  · exact List.Pairwise.nil
  · exact indicesOf_pairwise b x

theorem mem_jsAt {a b : List α} {blo bhi i j : Nat} (h : j ∈ jsAt a b blo bhi i) :
    blo ≤ j ∧ j < bhi ∧ j < b.length ∧ b[j]? = a[i]? := by
  unfold jsAt at h
  split at h
  case _ x hx =>
    rw [List.mem_filter] at h
    have htw := h.1
    have hp := List.mem_takeWhile_imp htw
    simp only [decide_eq_true_eq] at hp
    have hlt : j < bhi := hp
    have hmem : j ∈ b2j b x := (List.takeWhile_sublist _).mem htw
    have hb := mem_b2j hmem
    exact ⟨of_decide_eq_true h.2, hlt, hb.1, by rw [hb.2, hx]⟩
  case _ => simp at h

theorem jsAt_pairwise (a b : List α) (blo bhi i : Nat) :
    (jsAt a b blo bhi i).Pairwise (· < ·) := by
  unfold jsAt
  split
  · exact (((b2j_pairwise b _).sublist (List.takeWhile_sublist _)).filter _)
  · exact List.Pairwise.nil


/-! ## Bounds for `find_longest_match`

The result `(i, j, k)` of `find_longest_match a b alo ahi blo bhi` satisfies
`alo ≤ i`, `blo ≤ j`, `i + k ≤ ahi`, `j + k ≤ bhi` (as difflib documents).
The proof threads an invariant through the first pass (with a bound on the
`j2len` chain lengths) and through the four extension loops. -/

/-- The running best block lies inside the window. -/
def bestInBounds (alo blo ahi bhi : Nat) (p : Nat × Nat × Nat) : Prop :=
  alo ≤ p.1 ∧ blo ≤ p.2.1 ∧ p.1 + p.2.2 ≤ ahi ∧ p.2.1 + p.2.2 ≤ bhi

theorem bestInBounds_mk {alo blo ahi bhi x y z : Nat}
    (h1 : alo ≤ x) (h2 : blo ≤ y) (h3 : x + z ≤ ahi) (h4 : y + z ≤ bhi) :
    bestInBounds alo blo ahi bhi (x, y, z) := ⟨h1, h2, h3, h4⟩

/-- Invariant on `j2len` after `m` iterations of the outer loop: every chain
has length at most `m`, and a chain ending at `j` fits between `blo` and `bhi`. -/
def j2lenBound (blo bhi m : Nat) (f : Nat → Nat) : Prop :=
  ∀ j, f j ≤ m ∧ (1 ≤ f j → blo + f j ≤ j + 1 ∧ j < bhi)

theorem innerLoop_bounds {alo blo ahi bhi m : Nat} :
    ∀ (js : List Nat) (old f : Nat → Nat) (best : Nat × Nat × Nat),
    j2lenBound blo bhi m old →
    (∀ j ∈ js, blo ≤ j ∧ j < bhi) →
    j2lenBound blo bhi (m + 1) f →
    bestInBounds alo blo ahi bhi best →
    alo + m < ahi →
    j2lenBound blo bhi (m + 1) (innerLoop old (alo + m) js f best).1 ∧
    bestInBounds alo blo ahi bhi (innerLoop old (alo + m) js f best).2
  | [], _, f, best, _, _, hf, hbest, _ => ⟨hf, hbest⟩
  | j :: js, old, f, best, hold, hjs, hf, hbest, hi => by
    have hj := hjs j (List.mem_cons_self j js)
    have hrest : ∀ q ∈ js, blo ≤ q ∧ q < bhi := fun q hq => hjs q (List.mem_cons_of_mem _ hq)
    have hK : (if j = 0 then 0 else old (j - 1)) + 1 ≤ m + 1 := by
      split
      · omega
      · have := (hold (j - 1)).1; omega
    have hKb : blo + ((if j = 0 then 0 else old (j - 1)) + 1) ≤ j + 1 := by
      split
      · omega
      · rcases Nat.eq_zero_or_pos (old (j - 1)) with h0 | h1
        · omega
        · have := (hold (j - 1)).2 h1; omega
    simp only [innerLoop]
    generalize hG : (if j = 0 then 0 else old (j - 1)) + 1 = K
    rw [hG] at hK hKb
    apply innerLoop_bounds js old _ _ hold hrest ?_ ?_ hi
    · -- the updated `newj2len` still satisfies the invariant
      intro q
      by_cases hq : q = j
      · subst hq
        simp only [if_pos rfl]
        exact ⟨hK, fun _ => ⟨hKb, hj.2⟩⟩
      · simp only [if_neg hq]
        exact hf q
    · -- the updated best block stays in the window
      split
      case _ hlt =>
        exact bestInBounds_mk (by omega) (by omega) (by omega) (by omega)
      case _ => exact hbest

theorem outerLoop_bounds {a b : List α} {alo blo ahi bhi : Nat} :
    ∀ (len s : Nat) (f : Nat → Nat) (best : Nat × Nat × Nat),
    alo ≤ s → s + len ≤ ahi →
    j2lenBound blo bhi (s - alo) f →
    bestInBounds alo blo ahi bhi best →
    bestInBounds alo blo ahi bhi (outerLoop a b blo bhi (List.range' s len) f best)
  | 0, s, f, best, _, _, _, hbest => hbest
  | len + 1, s, f, best, hs, hlen, hf, hbest => by
    rw [List.range'_succ s len 1]
    simp only [outerLoop]
    have hjs : ∀ j ∈ jsAt a b blo bhi s, blo ≤ j ∧ j < bhi := by
      intro j hj
      have := mem_jsAt hj
      exact ⟨this.1, this.2.1⟩
    have hzero : j2lenBound blo bhi (s - alo + 1) (fun _ => 0) := by
      intro j
      refine ⟨Nat.zero_le _, fun h => ?_⟩
      simp at h
    have hi : alo + (s - alo) < ahi := by omega
    have h := innerLoop_bounds (jsAt a b blo bhi (alo + (s - alo)))
      f (fun _ => 0) best hf (by rw [show alo + (s - alo) = s from by omega]; exact hjs)
      hzero hbest hi
    rw [show alo + (s - alo) = s from by omega] at h
    apply outerLoop_bounds len (s + 1) _ _ (by omega) (by omega) ?_ h.2
    have heq : s + 1 - alo = (s - alo) + 1 := by omega
    rw [heq]
    exact h.1

theorem extendLo_bounds {a b : List α} {alo blo ahi bhi : Nat} {want : Bool} :
    ∀ (fuel : Nat) (p : Nat × Nat × Nat),
    bestInBounds alo blo ahi bhi p →
    bestInBounds alo blo ahi bhi (extendLo a b alo blo want fuel p)
  | 0, p, hp => hp
  | fuel + 1, (bi, bj, bs), hp => by
    have g1 : alo ≤ bi := hp.1
    have g2 : blo ≤ bj := hp.2.1
    have g3 : bi + bs ≤ ahi := hp.2.2.1
    have g4 : bj + bs ≤ bhi := hp.2.2.2
    simp only [extendLo]
    split
    case _ hcond =>
      simp only [Bool.and_eq_true, decide_eq_true_eq] at hcond
      obtain ⟨⟨⟨h1, h2⟩, _⟩, _⟩ := hcond
      exact extendLo_bounds fuel _
        (bestInBounds_mk (by omega) (by omega) (by omega) (by omega))
    case _ => exact hp

theorem extendHi_bounds {a b : List α} {alo blo ahi bhi : Nat} {want : Bool} :
    ∀ (fuel : Nat) (p : Nat × Nat × Nat),
    bestInBounds alo blo ahi bhi p →
    bestInBounds alo blo ahi bhi (extendHi a b ahi bhi want fuel p)
  | 0, p, hp => hp
  | fuel + 1, (bi, bj, bs), hp => by
    have g1 : alo ≤ bi := hp.1
    have g2 : blo ≤ bj := hp.2.1
    have g3 : bi + bs ≤ ahi := hp.2.2.1
    have g4 : bj + bs ≤ bhi := hp.2.2.2
    simp only [extendHi]
    split
    case _ hcond =>
      simp only [Bool.and_eq_true, decide_eq_true_eq] at hcond
      obtain ⟨⟨⟨h1, h2⟩, _⟩, _⟩ := hcond
      exact extendHi_bounds fuel _
        (bestInBounds_mk (by omega) (by omega) (by omega) (by omega))
    case _ => exact hp

theorem find_longest_match_bounds (a b : List α) {alo ahi blo bhi : Nat}
    (ha : alo ≤ ahi) (hb : blo ≤ bhi) :
    bestInBounds alo blo ahi bhi (find_longest_match a b alo ahi blo bhi) := by
  unfold find_longest_match
  apply extendHi_bounds
  apply extendLo_bounds
  apply extendHi_bounds
  apply extendLo_bounds
  apply outerLoop_bounds (ahi - alo) alo _ _ (Nat.le_refl alo) (by omega)
  · intro j
    refine ⟨Nat.zero_le _, fun h => ?_⟩
    simp at h
  · exact bestInBounds_mk (Nat.le_refl alo) (Nat.le_refl blo) (by omega) (by omega)

/-! ## Structure of the blocks produced by the `get_matching_blocks` queue loop

The queue loop maintains: every queued window is inside `[0, la] × [0, lb]`,
queued windows are pairwise separated (one entirely precedes the other in both
coordinates), emitted blocks are pairwise separated, nonempty, in bounds, and
every emitted block is separated from every queued window.  Hence the final
block list is a set of disjoint chain-comparable blocks. -/

/-- A window `(alo, ahi, blo, bhi)` is well-formed and inside the sequences. -/
def winOK (la lb : Nat) : Nat × Nat × Nat × Nat → Prop
  | (alo, ahi, blo, bhi) => alo ≤ ahi ∧ ahi ≤ la ∧ blo ≤ bhi ∧ bhi ≤ lb

/-- An emitted block is nonempty and inside the sequences. -/
def blkOK (la lb : Nat) : Nat × Nat × Nat → Prop
  | (i, j, k) => i + k ≤ la ∧ j + k ≤ lb ∧ 1 ≤ k

/-- Block `x` ends (in both coordinates) before block `y` starts. -/
def blkBefore : Nat × Nat × Nat → Nat × Nat × Nat → Prop
  | (i, j, k), (i', j', _) => i + k ≤ i' ∧ j + k ≤ j'

/-- Two blocks are separated: one wholly precedes the other. -/
def blkSep (x y : Nat × Nat × Nat) : Prop := blkBefore x y ∨ blkBefore y x

/-- Two windows are separated: one wholly precedes the other. -/
def wwSep : Nat × Nat × Nat × Nat → Nat × Nat × Nat × Nat → Prop
  | (alo, ahi, blo, bhi), (alo', ahi', blo', bhi') =>
    (ahi ≤ alo' ∧ bhi ≤ blo') ∨ (ahi' ≤ alo ∧ bhi' ≤ blo)

/-- A block and a window are separated: one wholly precedes the other. -/
def bwSep : Nat × Nat × Nat → Nat × Nat × Nat × Nat → Prop
  | (i, j, k), (alo, ahi, blo, bhi) => (i + k ≤ alo ∧ j + k ≤ blo) ∨ (ahi ≤ i ∧ bhi ≤ j)

/-- The queue-loop invariant of `get_matching_blocks`. -/
def qInv (la lb : Nat) (queue : List (Nat × Nat × Nat × Nat))
    (acc : List (Nat × Nat × Nat)) : Prop :=
  (∀ w ∈ queue, winOK la lb w) ∧ queue.Pairwise wwSep ∧
  (∀ x ∈ acc, blkOK la lb x) ∧ acc.Pairwise blkSep ∧
  (∀ x ∈ acc, ∀ w ∈ queue, bwSep x w)

/-- Termination measure contribution of one queued window. -/
def winMeasure : Nat × Nat × Nat × Nat → Nat
  | (alo, ahi, blo, bhi) => (ahi - alo) + (bhi - blo) + 1

/-- Termination measure of the whole queue. -/
def queueMeasure (queue : List (Nat × Nat × Nat × Nat)) : Nat :=
  (queue.map winMeasure).sum

theorem queueMeasure_cons (w : Nat × Nat × Nat × Nat) (rest : List (Nat × Nat × Nat × Nat)) :
    queueMeasure (w :: rest) = winMeasure w + queueMeasure rest := by
  simp [queueMeasure]

theorem queueMeasure_append (l1 l2 : List (Nat × Nat × Nat × Nat)) :
    queueMeasure (l1 ++ l2) = queueMeasure l1 + queueMeasure l2 := by
  simp [queueMeasure]

theorem queueMeasure_ite_singleton {c : Prop} [Decidable c] (w : Nat × Nat × Nat × Nat) :
    queueMeasure (if c then [w] else []) = if c then winMeasure w else 0 := by
  split <;> simp [queueMeasure]

theorem mem_ite_singleton {β : Type} {c : Prop} [Decidable c] {y x : β}
    (h : x ∈ if c then [y] else []) : x = y ∧ c := by
  by_cases hc : c
  · rw [if_pos hc] at h
    simp at h
    exact ⟨h, hc⟩
  · rw [if_neg hc] at h
    simp at h

theorem pairwise_ite_singleton {β : Type} {R : β → β → Prop} {c : Prop} [Decidable c] {y : β} :
    (if c then [y] else []).Pairwise R := by
  split <;> simp

theorem qInv_tail {la lb : Nat} {w : Nat × Nat × Nat × Nat}
    {rest : List (Nat × Nat × Nat × Nat)} {acc : List (Nat × Nat × Nat)}
    (h : qInv la lb (w :: rest) acc) : qInv la lb rest acc := by
  obtain ⟨hwin, hpw, hblk, hpb, hbw⟩ := h
  exact ⟨fun v hv => hwin v (List.mem_cons_of_mem _ hv), (List.pairwise_cons.mp hpw).2,
    hblk, hpb, fun x hx v hv => hbw x hx v (List.mem_cons_of_mem _ hv)⟩

theorem qInv_step {la lb alo ahi blo bhi i j k : Nat}
    {rest : List (Nat × Nat × Nat × Nat)} {acc : List (Nat × Nat × Nat)}
    (hinv : qInv la lb ((alo, ahi, blo, bhi) :: rest) acc)
    (h1 : alo ≤ i) (h2 : blo ≤ j) (h3 : i + k ≤ ahi) (h4 : j + k ≤ bhi) (hk : 1 ≤ k) :
    qInv la lb ((if i + k < ahi ∧ j + k < bhi then [(i + k, ahi, j + k, bhi)] else []) ++
        ((if alo < i ∧ blo < j then [(alo, i, blo, j)] else []) ++ rest))
      (acc ++ [(i, j, k)]) := by
  obtain ⟨hwin, hpw, hblk, hpb, hbw⟩ := hinv
  have hw0 : winOK la lb (alo, ahi, blo, bhi) := hwin _ (List.mem_cons_self _ _)
  obtain ⟨hw1, hw2, hw3, hw4⟩ := hw0
  have hwrest : ∀ w ∈ rest, winOK la lb w := fun w hw => hwin w (List.mem_cons_of_mem _ hw)
  have hsep0 : ∀ w ∈ rest, wwSep (alo, ahi, blo, bhi) w := (List.pairwise_cons.mp hpw).1
  have hpwrest : rest.Pairwise wwSep := (List.pairwise_cons.mp hpw).2
  have hbw0 : ∀ x ∈ acc, bwSep x (alo, ahi, blo, bhi) :=
    fun x hx => hbw x hx _ (List.mem_cons_self _ _)
  have hbwrest : ∀ x ∈ acc, ∀ w ∈ rest, bwSep x w :=
    fun x hx w hw => hbw x hx w (List.mem_cons_of_mem _ hw)
  refine ⟨?_, ?_, ?_, ?_, ?_⟩
  · -- all new windows are well-formed
    intro w hw
    rcases List.mem_append.mp hw with hw | hw
    · obtain ⟨rfl, _⟩ := mem_ite_singleton hw
      exact ⟨by omega, by omega, by omega, by omega⟩
    rcases List.mem_append.mp hw with hw | hw
    · obtain ⟨rfl, _⟩ := mem_ite_singleton hw
      exact ⟨by omega, by omega, by omega, by omega⟩
    · exact hwrest w hw
  · -- new windows pairwise separated
    rw [List.pairwise_append]
    refine ⟨pairwise_ite_singleton, ?_, ?_⟩
    · rw [List.pairwise_append]
      refine ⟨pairwise_ite_singleton, hpwrest, ?_⟩
      intro v hv w hw
      obtain ⟨rfl, _⟩ := mem_ite_singleton hv
      obtain ⟨wa, wb, wc, wd⟩ := w
      rcases hsep0 _ hw with hc | hc <;> simp only [wwSep] <;> omega
    · intro v hv w hw
      obtain ⟨rfl, _⟩ := mem_ite_singleton hv
      rcases List.mem_append.mp hw with hw | hw
      · obtain ⟨rfl, _⟩ := mem_ite_singleton hw
        simp only [wwSep]
        omega
      · obtain ⟨wa, wb, wc, wd⟩ := w
        rcases hsep0 _ hw with hc | hc <;> simp only [wwSep] <;> omega
  · -- all emitted blocks in bounds
    intro x hx
    rcases List.mem_append.mp hx with hx | hx
    · exact hblk x hx
    · simp at hx
      subst hx
      exact ⟨by omega, by omega, hk⟩
  · -- emitted blocks pairwise separated
    rw [List.pairwise_append]
    refine ⟨hpb, by simp, ?_⟩
    intro x hx y hy
    simp at hy
    subst hy
    obtain ⟨xa, xb, xc⟩ := x
    rcases hbw0 _ hx with hc | hc <;> simp only [blkSep, blkBefore] <;> omega
  · -- every emitted block separated from every queued window
    intro x hx w hw
    rcases List.mem_append.mp hx with hx | hx
    · -- old block
      rcases List.mem_append.mp hw with hw | hw
      · obtain ⟨rfl, _⟩ := mem_ite_singleton hw
        obtain ⟨xa, xb, xc⟩ := x
        rcases hbw0 _ hx with hc | hc <;> simp only [bwSep] <;> omega
      rcases List.mem_append.mp hw with hw | hw
      · obtain ⟨rfl, _⟩ := mem_ite_singleton hw
        obtain ⟨xa, xb, xc⟩ := x
        rcases hbw0 _ hx with hc | hc <;> simp only [bwSep] <;> omega
      · exact hbwrest x hx w hw
    · -- the freshly emitted block
      simp at hx
      subst hx
      rcases List.mem_append.mp hw with hw | hw
      · obtain ⟨rfl, _⟩ := mem_ite_singleton hw
        simp only [bwSep]
        omega
      rcases List.mem_append.mp hw with hw | hw
      · obtain ⟨rfl, _⟩ := mem_ite_singleton hw
        simp only [bwSep]
        omega
      · obtain ⟨wa, wb, wc, wd⟩ := w
        rcases hsep0 _ hw with hc | hc <;> simp only [bwSep] <;> omega

theorem gmbLoop_inv {a b : List α} {la lb : Nat} :
    ∀ (fuel : Nat) (queue : List (Nat × Nat × Nat × Nat)) (acc : List (Nat × Nat × Nat)),
    queueMeasure queue ≤ fuel → qInv la lb queue acc →
    (∀ x ∈ gmbLoop a b fuel queue acc, blkOK la lb x) ∧
    (gmbLoop a b fuel queue acc).Pairwise blkSep
  | 0, queue, acc, hm, hinv => by
    cases queue with
    | nil => exact ⟨hinv.2.2.1, hinv.2.2.2.1⟩
    | cons w rest =>
      exfalso
      rw [queueMeasure_cons] at hm
      obtain ⟨wa, wb, wc, wd⟩ := w
      simp only [winMeasure] at hm
      omega
  | fuel + 1, [], acc, hm, hinv => ⟨hinv.2.2.1, hinv.2.2.2.1⟩
  | fuel + 1, (alo, ahi, blo, bhi) :: rest, acc, hm, hinv => by
    have hw0 : winOK la lb (alo, ahi, blo, bhi) := hinv.1 _ (List.mem_cons_self _ _)
    obtain ⟨hw1, hw2, hw3, hw4⟩ := hw0
    have hbnd := find_longest_match_bounds a b hw1 hw3
    simp only [gmbLoop]
    rcases hfm : find_longest_match a b alo ahi blo bhi with ⟨i, j, k⟩
    rw [hfm] at hbnd
    have hb1 : alo ≤ i := hbnd.1
    have hb2 : blo ≤ j := hbnd.2.1
    have hb3 : i + k ≤ ahi := hbnd.2.2.1
    have hb4 : j + k ≤ bhi := hbnd.2.2.2
    simp only [hfm]
    rw [queueMeasure_cons] at hm
    simp only [winMeasure] at hm
    split
    case _ hk =>
      rw [List.append_assoc]
      apply gmbLoop_inv fuel _ _ ?_ (qInv_step hinv hb1 hb2 hb3 hb4 (by omega))
      rw [queueMeasure_append, queueMeasure_append,
        queueMeasure_ite_singleton, queueMeasure_ite_singleton]
      simp only [winMeasure]
      split <;> split <;> omega
    case _ hk =>
      exact gmbLoop_inv fuel _ _ (by omega) (qInv_tail hinv)

theorem gmb_raw_props (a b : List α) :
    (∀ x ∈ gmbLoop a b (a.length + b.length + 1) [(0, a.length, 0, b.length)] [],
      blkOK a.length b.length x) ∧
    (gmbLoop a b (a.length + b.length + 1) [(0, a.length, 0, b.length)] []).Pairwise blkSep := by
  apply gmbLoop_inv
  · rw [queueMeasure_cons]
    simp [winMeasure, queueMeasure]
  · refine ⟨?_, ?_, ?_, ?_, ?_⟩
    · intro w hw
      simp at hw
      subst hw
      exact ⟨Nat.zero_le _, Nat.le_refl _, Nat.zero_le _, Nat.le_refl _⟩
    · simp
    · intro x hx
      simp at hx
    · simp
    · intro x hx
      simp at hx

/-! ## The matching blocks form an ordered chain -/

/-- `blocksChain la lb i j l`: the blocks of `l` are in order, non-overlapping,
inside the sequences, and start at or after position `(i, j)`. -/
def blocksChain (la lb : Nat) : Nat → Nat → List (Nat × Nat × Nat) → Prop
  | _, _, [] => True
  | i, j, x :: rest =>
    i ≤ x.1 ∧ j ≤ x.2.1 ∧ x.1 + x.2.2 ≤ la ∧ x.2.1 + x.2.2 ≤ lb ∧
      blocksChain la lb (x.1 + x.2.2) (x.2.1 + x.2.2) rest

theorem blocksChain_mono {la lb : Nat} {l : List (Nat × Nat × Nat)} {i j i' j' : Nat}
    (h1 : i' ≤ i) (h2 : j' ≤ j) (h : blocksChain la lb i j l) :
    blocksChain la lb i' j' l := by
  cases l with
  | nil => trivial
  | cons x rest =>
    obtain ⟨c1, c2, c3, c4, c5⟩ := h
    exact ⟨by omega, by omega, c3, c4, c5⟩

theorem chain_of_pairwise_before {la lb : Nat} :
    ∀ (l : List (Nat × Nat × Nat)) (i j : Nat),
    l.Pairwise blkBefore →
    (∀ x ∈ l, x.1 + x.2.2 ≤ la ∧ x.2.1 + x.2.2 ≤ lb) →
    (∀ x ∈ l, i ≤ x.1 ∧ j ≤ x.2.1) →
    blocksChain la lb i j l
  | [], _, _, _, _, _ => trivial
  | x :: rest, i, j, hpw, hbnd, hstart => by
    obtain ⟨xa, xb, xc⟩ := x
    have hx := hbnd _ (List.mem_cons_self _ _)
    have hs := hstart _ (List.mem_cons_self _ _)
    have hhead : ∀ y ∈ rest, blkBefore (xa, xb, xc) y := (List.pairwise_cons.mp hpw).1
    refine ⟨hs.1, hs.2, hx.1, hx.2, ?_⟩
    apply chain_of_pairwise_before rest _ _ (List.pairwise_cons.mp hpw).2
      (fun y hy => hbnd y (List.mem_cons_of_mem _ hy))
    intro y hy
    have h := hhead y hy
    obtain ⟨ya, yb, yc⟩ := y
    simp only [blkBefore] at h
    exact ⟨h.1, h.2⟩

theorem pairwise_before_of_sorted {l : List (Nat × Nat × Nat)}
    (hsort : l.Sorted blockLE) (hsep : l.Pairwise blkSep)
    (hok : ∀ x ∈ l, 1 ≤ x.2.2) : l.Pairwise blkBefore := by
  have hcomb : l.Pairwise fun x y => blockLE x y ∧ blkSep x y := List.Pairwise.and hsort hsep
  refine hcomb.imp_of_mem ?_
  intro x y hx hy h
  obtain ⟨hle, hsep'⟩ := h
  rcases hsep' with hb | hb
  · exact hb
  · exfalso
    have hky := hok y hy
    obtain ⟨xa, xb, xc⟩ := x
    obtain ⟨ya, yb, yc⟩ := y
    simp only [blkBefore] at hb
    simp only [blockLE] at hle
    simp only at hky
    omega

theorem nonAdjacentLoop_chain {la lb : Nat} :
    ∀ (l : List (Nat × Nat × Nat)) (c1 c2 c3 : Nat),
    c1 + c3 ≤ la → c2 + c3 ≤ lb →
    (∀ x ∈ l, c1 + c3 ≤ x.1 ∧ c2 + c3 ≤ x.2.1) →
    (∀ x ∈ l, x.1 + x.2.2 ≤ la ∧ x.2.1 + x.2.2 ≤ lb) →
    l.Pairwise blkBefore →
    blocksChain la lb c1 c2 (nonAdjacentLoop (c1, c2, c3) l)
  | [], c1, c2, c3, h1, h2, _, _, _ => by
    simp only [nonAdjacentLoop]
    split
    · exact ⟨Nat.le_refl _, Nat.le_refl _, h1, h2, trivial⟩
    · trivial
  | (x1, x2, x3) :: rest, c1, c2, c3, h1, h2, hstart, hbnd, hpw => by
    have hxa : x1 + x3 ≤ la := (hbnd _ (List.mem_cons_self _ _)).1
    have hxb : x2 + x3 ≤ lb := (hbnd _ (List.mem_cons_self _ _)).2
    have hsa : c1 + c3 ≤ x1 := (hstart _ (List.mem_cons_self _ _)).1
    have hsb : c2 + c3 ≤ x2 := (hstart _ (List.mem_cons_self _ _)).2
    have hhead : ∀ y ∈ rest, blkBefore (x1, x2, x3) y := (List.pairwise_cons.mp hpw).1
    have hpwrest := (List.pairwise_cons.mp hpw).2
    have hbndrest : ∀ y ∈ rest, y.1 + y.2.2 ≤ la ∧ y.2.1 + y.2.2 ≤ lb :=
      fun y hy => hbnd y (List.mem_cons_of_mem _ hy)
    have hstartx : ∀ y ∈ rest, x1 + x3 ≤ y.1 ∧ x2 + x3 ≤ y.2.1 := by
      intro y hy
      have h := hhead y hy
      obtain ⟨ya, yb, yc⟩ := y
      simp only [blkBefore] at h
      exact ⟨h.1, h.2⟩
    simp only [nonAdjacentLoop]
    split
    case _ hadj =>
      apply nonAdjacentLoop_chain rest c1 c2 (c3 + x3) (by omega) (by omega) ?_
        hbndrest hpwrest
      intro y hy
      have h := hstartx y hy
      omega
    case _ hnadj =>
      have hchain := nonAdjacentLoop_chain rest x1 x2 x3 hxa hxb hstartx hbndrest hpwrest
      split
      case _ hc3 =>
        rw [List.singleton_append]
        exact ⟨Nat.le_refl _, Nat.le_refl _, h1, h2,
          blocksChain_mono hsa hsb hchain⟩
      case _ hc3 =>
        rw [List.nil_append]
        exact blocksChain_mono (by omega) (by omega) hchain

theorem blocksChain_append_sentinel {la lb : Nat} :
    ∀ (l : List (Nat × Nat × Nat)) (i j : Nat), i ≤ la → j ≤ lb →
    blocksChain la lb i j l → blocksChain la lb i j (l ++ [(la, lb, 0)])
  | [], i, j, h1, h2, _ => ⟨h1, h2, Nat.le_refl la, Nat.le_refl lb, trivial⟩
  | x :: rest, i, j, _, _, h => by
    obtain ⟨c1, c2, c3, c4, c5⟩ := h
    exact ⟨c1, c2, c3, c4,
      blocksChain_append_sentinel rest _ _ (by omega) (by omega) c5⟩

theorem get_matching_blocks_chain (a b : List α) :
    blocksChain a.length b.length 0 0 (get_matching_blocks a b) := by
  have hraw := gmb_raw_props a b
  have hperm := List.perm_insertionSort blockLE
    (gmbLoop a b (a.length + b.length + 1) [(0, a.length, 0, b.length)] [])
  have hsort := List.sorted_insertionSort blockLE
    (gmbLoop a b (a.length + b.length + 1) [(0, a.length, 0, b.length)] [])
  have hsymm : ∀ {x y : Nat × Nat × Nat}, blkSep x y → blkSep y x := fun h => Or.symm h
  have hsep := (hperm.pairwise_iff hsymm).mpr hraw.2
  have hok : ∀ x ∈ (gmbLoop a b (a.length + b.length + 1)
      [(0, a.length, 0, b.length)] []).insertionSort blockLE, blkOK a.length b.length x :=
    fun x hx => hraw.1 x (hperm.mem_iff.mp hx)
  have hbef := pairwise_before_of_sorted hsort hsep (fun x hx => by
    obtain ⟨xa, xb, xc⟩ := x
    exact (hok _ hx).2.2)
  unfold get_matching_blocks
  apply blocksChain_append_sentinel _ _ _ (Nat.zero_le _) (Nat.zero_le _)
  apply nonAdjacentLoop_chain _ 0 0 0 (Nat.zero_le _) (Nat.zero_le _)
    (fun x hx => ⟨Nat.zero_le _, Nat.zero_le _⟩) ?_ hbef
  intro x hx
  obtain ⟨xa, xb, xc⟩ := x
  exact ⟨(hok _ hx).1, (hok _ hx).2.1⟩

/-! ## Per-opcode facts about `align_two`'s loop body -/

/-- End position on the `a` side after consuming a list of matching blocks. -/
def endPosA : Nat → List (Nat × Nat × Nat) → Nat
  | i, [] => i
  | _, x :: rest => endPosA (x.1 + x.2.2) rest

/-- End position on the `b` side after consuming a list of matching blocks. -/
def endPosB : Nat → List (Nat × Nat × Nat) → Nat
  | j, [] => j
  | _, x :: rest => endPosB (x.2.1 + x.2.2) rest

theorem endPos_ge {la lb : Nat} :
    ∀ (bs : List (Nat × Nat × Nat)) (i j : Nat), blocksChain la lb i j bs →
    i ≤ endPosA i bs ∧ j ≤ endPosB j bs
  | [], i, j, _ => ⟨Nat.le_refl i, Nat.le_refl j⟩
  | (ai, bj, k) :: rest, i, j, h => by
    have h1 : i ≤ ai := h.1
    have h2 : j ≤ bj := h.2.1
    have h5 : blocksChain la lb (ai + k) (bj + k) rest := h.2.2.2.2
    have hrec := endPos_ge rest (ai + k) (bj + k) h5
    simp only [endPosA, endPosB]
    omega

theorem endPosA_append_single (e : Nat × Nat × Nat) :
    ∀ (bs : List (Nat × Nat × Nat)) (i : Nat), endPosA i (bs ++ [e]) = e.1 + e.2.2
  | [], _ => rfl
  | _ :: rest, _ => endPosA_append_single e rest _

theorem endPosB_append_single (e : Nat × Nat × Nat) :
    ∀ (bs : List (Nat × Nat × Nat)) (j : Nat), endPosB j (bs ++ [e]) = e.2.1 + e.2.2
  | [], _ => rfl
  | _ :: rest, _ => endPosB_append_single e rest _

theorem alignLoop_append (s1 s2 : List α) :
    ∀ (l1 l2 : List (Tag × Nat × Nat × Nat × Nat)),
    alignLoop s1 s2 (l1 ++ l2) =
      ((alignLoop s1 s2 l1).1 ++ (alignLoop s1 s2 l2).1,
       (alignLoop s1 s2 l1).2 ++ (alignLoop s1 s2 l2).2)
  | [], l2 => by simp [alignLoop]
  | op :: l1, l2 => by
    have ih := alignLoop_append s1 s2 l1 l2
    show alignLoop s1 s2 (op :: l1 ++ l2) = _
    rw [List.cons_append]
    simp only [alignLoop]
    rw [ih]
    simp [List.append_assoc]

theorem alignLoop_singleton (s1 s2 : List α) (op : Tag × Nat × Nat × Nat × Nat) :
    alignLoop s1 s2 [op] = alignOp s1 s2 op := by
  simp only [alignLoop, List.append_nil]

/-- The four facts we track about each aligned segment pair: equal lengths,
gap-free readback of the `a`-slice and the `b`-slice, and no two-sided gap
column. -/
def pieceSpec (a b : List α) (i i' j j' : Nat) (p : List (Option α) × List (Option α)) : Prop :=
  p.1.length = p.2.length ∧
  p.1.filterMap id = slice a i i' ∧
  p.2.filterMap id = slice b j j' ∧
  ∀ idx : Nat, ¬(p.1[idx]? = some none ∧ p.2[idx]? = some none)

theorem map_some_getElem?_ne {l : List α} (idx : Nat) :
    ¬ (l.map some)[idx]? = some none := by
  rw [List.getElem?_map]
  cases l[idx]? <;> simp

theorem pieceSpec_nil (a b : List α) (i j : Nat) :
    pieceSpec a b i i j j ([], []) := by
  refine ⟨rfl, ?_, ?_, ?_⟩
  · rw [slice_self]; rfl
  · rw [slice_self]; rfl
  · intro idx h
    simp at h

theorem noGapGap_append {A1 B1 A2 B2 : List (Option α)}
    (hlen : A1.length = B1.length)
    (h1 : ∀ idx : Nat, ¬(A1[idx]? = some none ∧ B1[idx]? = some none))
    (h2 : ∀ idx : Nat, ¬(A2[idx]? = some none ∧ B2[idx]? = some none)) :
    ∀ idx : Nat, ¬((A1 ++ A2)[idx]? = some none ∧ (B1 ++ B2)[idx]? = some none) := by
  intro idx h
  obtain ⟨ha, hb⟩ := h
  by_cases hlt : idx < A1.length
  · rw [List.getElem?_append, if_pos hlt] at ha
    rw [List.getElem?_append, if_pos (by omega)] at hb
    exact h1 idx ⟨ha, hb⟩
  · rw [List.getElem?_append_right (by omega)] at ha
    rw [List.getElem?_append_right (by omega)] at hb
    rw [show idx - B1.length = idx - A1.length from by omega] at hb
    exact h2 _ ⟨ha, hb⟩

theorem pieceSpec_append {a b : List α} {i m i' j n j' : Nat}
    {p q : List (Option α) × List (Option α)}
    (hp : pieceSpec a b i m j n p) (hq : pieceSpec a b m i' n j' q)
    (him : i ≤ m) (hmi : m ≤ i') (hjn : j ≤ n) (hnj : n ≤ j') :
    pieceSpec a b i i' j j' (p.1 ++ q.1, p.2 ++ q.2) := by
  obtain ⟨hl1, hf1, hg1, hn1⟩ := hp
  obtain ⟨hl2, hf2, hg2, hn2⟩ := hq
  refine ⟨?_, ?_, ?_, ?_⟩
  · simp only [List.length_append]
    omega
  · rw [List.filterMap_append, hf1, hf2, slice_append a him hmi]
  · rw [List.filterMap_append, hg1, hg2, slice_append b hjn hnj]
  · exact noGapGap_append hl1 hn1 hn2

theorem alignOp_equal_spec (a b : List α) {ai bj k : Nat}
    (h3 : ai + k ≤ a.length) (h4 : bj + k ≤ b.length) :
    pieceSpec a b ai (ai + k) bj (bj + k) (alignOp a b (Tag.equal, ai, ai + k, bj, bj + k)) := by
  simp only [alignOp]
  refine ⟨?_, ?_, ?_, ?_⟩
  · have e1 : (slice a ai (ai + k)).length = ai + k - ai := slice_length a (by omega)
    have e2 : (slice b bj (bj + k)).length = bj + k - bj := slice_length b (by omega)
    simp only [List.length_map, e1, e2]
    omega
  · simp
  · simp
  · intro idx h
    exact map_some_getElem?_ne idx h.1

theorem alignOp_delete_spec (a b : List α) {i ai j : Nat}
    (h1 : i ≤ ai) (h3 : ai ≤ a.length) :
    pieceSpec a b i ai j j (alignOp a b (Tag.delete, i, ai, j, j)) := by
  simp only [alignOp]
  refine ⟨?_, ?_, ?_, ?_⟩
  · have e1 : (slice a i ai).length = ai - i := slice_length a (by omega)
    simp only [List.length_map, List.length_replicate, e1]
  · simp
  · rw [slice_self]
    simp [List.filterMap_replicate]
  · intro idx h
    exact map_some_getElem?_ne idx h.1

theorem alignOp_insert_spec (a b : List α) {i j bj : Nat}
    (h2 : j ≤ bj) (h4 : bj ≤ b.length) :
    pieceSpec a b i i j bj (alignOp a b (Tag.insert, i, i, j, bj)) := by
  simp only [alignOp]
  refine ⟨?_, ?_, ?_, ?_⟩
  · have e1 : (slice b j bj).length = bj - j := slice_length b (by omega)
    simp only [List.length_map, List.length_replicate, e1]
  · rw [slice_self]
    simp [List.filterMap_replicate]
  · simp
  · intro idx h
    exact map_some_getElem?_ne idx h.2

theorem padded_getElem?_some_none {l : List α} {p idx : Nat}
    (h : ((l.map some) ++ List.replicate p (none : Option α))[idx]? = some none) :
    l.length ≤ idx ∧ idx < l.length + p := by
  by_cases hlt : idx < (l.map some).length
  · rw [List.getElem?_append, if_pos hlt] at h
    exact absurd h (map_some_getElem?_ne idx)
  · rw [List.getElem?_append_right (by omega)] at h
    simp only [List.length_map] at hlt h ⊢
    rw [List.getElem?_replicate] at h
    split at h
    · constructor <;> omega
    · simp at h

theorem alignOp_replace_spec (a b : List α) {i ai j bj : Nat}
    (h1 : i ≤ ai) (h2 : j ≤ bj) (h3 : ai ≤ a.length) (h4 : bj ≤ b.length) :
    pieceSpec a b i ai j bj (alignOp a b (Tag.replace, i, ai, j, bj)) := by
  simp only [alignOp]
  refine ⟨?_, ?_, ?_, ?_⟩
  · simp only [List.length_append, List.length_map, List.length_replicate]
    omega
  · rw [List.filterMap_append]
    simp [List.filterMap_replicate]
  · rw [List.filterMap_append]
    simp [List.filterMap_replicate]
  · intro idx h
    have ha := padded_getElem?_some_none h.1
    have hb := padded_getElem?_some_none h.2
    simp only [List.length_map] at ha hb
    omega

/-! ## The alignment specification -/

theorem opcodes_align_spec (a b : List α) :
    ∀ (bs : List (Nat × Nat × Nat)) (i j : Nat),
    blocksChain a.length b.length i j bs → i ≤ a.length → j ≤ b.length →
    pieceSpec a b i (endPosA i bs) j (endPosB j bs) (alignLoop a b (opcodesLoop i j bs))
  | [], i, j, _, _, _ => by
    simp only [opcodesLoop, endPosA, endPosB, alignLoop]
    exact pieceSpec_nil a b i j
  | (ai, bj, k) :: rest, i, j, hchain, hi, hj => by
    have h1 : i ≤ ai := hchain.1
    have h2 : j ≤ bj := hchain.2.1
    have h3 : ai + k ≤ a.length := hchain.2.2.1
    have h4 : bj + k ≤ b.length := hchain.2.2.2.1
    have h5 : blocksChain a.length b.length (ai + k) (bj + k) rest := hchain.2.2.2.2
    have hIH := opcodes_align_spec a b rest (ai + k) (bj + k) h5 (by omega) (by omega)
    have hend := endPos_ge rest (ai + k) (bj + k) h5
    have hgap : pieceSpec a b i ai j bj (alignLoop a b
        (if i < ai ∧ j < bj then [(Tag.replace, i, ai, j, bj)]
         else if i < ai then [(Tag.delete, i, ai, j, bj)]
         else if j < bj then [(Tag.insert, i, ai, j, bj)]
         else [])) := by
      by_cases hia : i < ai
      · by_cases hjb : j < bj
        · rw [if_pos ⟨hia, hjb⟩, alignLoop_singleton]
          exact alignOp_replace_spec a b (by omega) (by omega) (by omega) (by omega)
        · have hjeq : j = bj := by omega
          subst hjeq
          rw [if_neg (fun hcon => hjb hcon.2), if_pos hia, alignLoop_singleton]
          exact alignOp_delete_spec a b (by omega) (by omega)
      · have hieq : i = ai := by omega
        subst hieq
        by_cases hjb : j < bj
        · rw [if_neg (fun hcon => hia hcon.1), if_neg hia, if_pos hjb, alignLoop_singleton]
          exact alignOp_insert_spec a b (by omega) (by omega)
        · have hjeq : j = bj := by omega
          subst hjeq
          rw [if_neg (fun hcon => hia hcon.1), if_neg hia, if_neg hjb]
          simp only [alignLoop]
          exact pieceSpec_nil a b i j
    have heq : pieceSpec a b ai (ai + k) bj (bj + k) (alignLoop a b
        (if k ≠ 0 then [(Tag.equal, ai, ai + k, bj, bj + k)] else [])) := by
      by_cases hk : k ≠ 0
      · rw [if_pos hk, alignLoop_singleton]
        exact alignOp_equal_spec a b h3 h4
      · have hk0 : k = 0 := by omega
        subst hk0
        rw [if_neg hk]
        simp only [alignLoop]
        exact pieceSpec_nil a b ai bj
    simp only [opcodesLoop, endPosA, endPosB]
    rw [alignLoop_append, alignLoop_append]
    have hGE := pieceSpec_append hgap heq h1 (by omega) h2 (by omega)
    have hfull := pieceSpec_append hGE hIH (by omega) hend.1 (by omega) hend.2
    exact hfull

theorem endPosA_gmb (a b : List α) :
    endPosA 0 (get_matching_blocks a b) = a.length := by
  unfold get_matching_blocks
  rw [endPosA_append_single]
  simp

theorem endPosB_gmb (a b : List α) :
    endPosB 0 (get_matching_blocks a b) = b.length := by
  unfold get_matching_blocks
  rw [endPosB_append_single]
  simp

/-- The combined specification of `align_two`: the two aligned sequences have
equal length, the non-gap tokens of each side reconstruct that side's input,
and no column is a gap on both sides. -/
theorem align_two_spec (a b : List α) :
    (align_two a b).1.length = (align_two a b).2.length ∧
    (align_two a b).1.filterMap id = a ∧
    (align_two a b).2.filterMap id = b ∧
    ∀ idx : Nat, ¬((align_two a b).1[idx]? = some none ∧
                   (align_two a b).2[idx]? = some none) := by
  have hchain := get_matching_blocks_chain a b
  have h := opcodes_align_spec a b (get_matching_blocks a b) 0 0 hchain
    (Nat.zero_le _) (Nat.zero_le _)
  rw [endPosA_gmb, endPosB_gmb] at h
  obtain ⟨hl, hA, hB, hg⟩ := h
  rw [slice_zero_length] at hA
  rw [slice_zero_length] at hB
  exact ⟨hl, hA, hB, hg⟩

/-! ## Consensus-level lemmas -/

theorem consensusLoop_sublist (cols : List (Option α × Option α)) :
    List.Sublist (cols.filterMap Prod.fst) (consensusLoop cols) := by
  induction cols with
  | nil => simp [consensusLoop]
  | cons c rest ih =>
    obtain ⟨c1, c2⟩ := c
    cases c1 with
    | none =>
      cases c2 with
      | none =>
        simp only [consensusLoop, List.filterMap_cons]
        exact ih
      | some t2 =>
        simp only [consensusLoop, List.filterMap_cons]
        exact ih.cons t2
    | some t1 =>
      cases c2 with
      | none =>
        simp only [consensusLoop, List.filterMap_cons]
        exact ih.cons₂ t1
      | some t2 =>
        simp only [consensusLoop, List.filterMap_cons]
        split
        · exact ih.cons₂ t1
        · exact ih.cons₂ t1

theorem filterMap_fst_zip {A B : List (Option α)} (hlen : A.length = B.length) :
    (A.zip B).filterMap Prod.fst = A.filterMap id := by
  have hmap : (A.zip B).map Prod.fst = A := List.map_fst_zip A B (by omega)
  have h2 : ((A.zip B).map Prod.fst).filterMap id = (A.zip B).filterMap (id ∘ Prod.fst) :=
    List.filterMap_map _ _ _
  rw [hmap] at h2
  rw [h2]
  rfl

/-- The mismatch event list contains an entry for every column holding two
distinct tokens. -/
theorem mismatchLoop_mem :
    ∀ (cols : List (Option α × Option α)) (base idx : Nat) (t1 t2 : α),
    cols[idx]? = some (some t1, some t2) → t1 ≠ t2 →
    (base + idx, t1, t2) ∈ mismatchLoop base cols
  | [], _, idx, _, _, h, _ => by simp at h
  | c :: rest, base, 0, t1, t2, h, hne => by
    simp only [List.getElem?_cons_zero, Option.some.injEq] at h
    subst h
    simp only [mismatchLoop]
    rw [if_neg hne]
    exact List.mem_cons_self _ _
  | c :: rest, base, idx + 1, t1, t2, h, hne => by
    simp only [List.getElem?_cons_succ] at h
    have ih := mismatchLoop_mem rest (base + 1) idx t1 t2 h hne
    have harith : base + 1 + idx = base + (idx + 1) := by omega
    rw [harith] at ih
    obtain ⟨c1, c2⟩ := c
    cases c1 with
    | none => simpa only [mismatchLoop] using ih
    | some x1 =>
      cases c2 with
      | none => simpa only [mismatchLoop] using ih
      | some x2 =>
        simp only [mismatchLoop]
        split
        · exact ih
        · exact List.mem_cons_of_mem _ ih

/-! ## `consensus_two` with an empty side -/

theorem jsAt_empty_b (a : List α) (blo bhi i : Nat) : jsAt a [] blo bhi i = [] := by
  unfold jsAt
  cases a[i]? with
  | none => rfl
  | some x =>
    simp only
    rw [show b2j ([] : List α) x = [] from by
      unfold b2j
      split
      · rfl
      · rfl]
    rfl

theorem outerLoop_js_empty (a b : List α) (blo bhi : Nat) :
    ∀ (is : List Nat) (f : Nat → Nat) (best : Nat × Nat × Nat),
    (∀ i ∈ is, jsAt a b blo bhi i = []) →
    outerLoop a b blo bhi is f best = best
  | [], _, _, _ => rfl
  | i :: is, f, best, h => by
    simp only [outerLoop, h i (List.mem_cons_self _ _), innerLoop]
    exact outerLoop_js_empty a b blo bhi is _ best
      (fun q hq => h q (List.mem_cons_of_mem _ hq))

theorem extendLo_bj0 (a b : List α) (alo : Nat) (want : Bool) :
    ∀ (fuel bi bs : Nat), extendLo a b alo 0 want fuel (bi, 0, bs) = (bi, 0, bs)
  | 0, _, _ => rfl
  | fuel + 1, bi, bs => by simp [extendLo]

theorem extendHi_bhi0 (a b : List α) (ahi : Nat) (want : Bool) :
    ∀ (fuel bi bj bs : Nat), extendHi a b ahi 0 want fuel (bi, bj, bs) = (bi, bj, bs)
  | 0, _, _, _ => rfl
  | fuel + 1, bi, bj, bs => by simp [extendHi]

theorem fml_empty_b (a : List α) : find_longest_match a [] 0 a.length 0 0 = (0, 0, 0) := by
  have h0 : outerLoop a ([] : List α) 0 0 (List.range' 0 (a.length - 0)) (fun _ => 0) (0, 0, 0)
      = (0, 0, 0) :=
    outerLoop_js_empty a [] 0 0 _ _ _ (fun i _ => jsAt_empty_b a 0 0 i)
  simp only [find_longest_match, h0, extendLo, extendHi_bhi0]

theorem fml_empty_a (b : List α) : find_longest_match [] b 0 0 0 b.length = (0, 0, 0) := rfl

theorem gmbLoop_nil_queue (a b : List α) (acc : List (Nat × Nat × Nat)) :
    ∀ fuel, gmbLoop a b fuel [] acc = acc
  | 0 => rfl
  | _ + 1 => rfl

theorem gmb_empty_b (a : List α) : get_matching_blocks a [] = [(a.length, 0, 0)] := by
  unfold get_matching_blocks
  simp only [List.length_nil, gmbLoop, fml_empty_b]
  norm_num
  rw [gmbLoop_nil_queue]
  simp [nonAdjacentLoop]

theorem gmb_empty_a (b : List α) : get_matching_blocks [] b = [(0, b.length, 0)] := by
  unfold get_matching_blocks
  simp only [List.length_nil, gmbLoop, fml_empty_a]
  norm_num
  rw [gmbLoop_nil_queue]
  simp [nonAdjacentLoop]

theorem consensusLoop_map_some_none (a : List α) :
    consensusLoop ((a.map some).zip (List.replicate a.length (none : Option α))) = a := by
  induction a with
  | nil => rfl
  | cons x xs ih =>
    simp only [List.map_cons, List.length_cons, List.replicate_succ, List.zip_cons_cons,
      consensusLoop]
    exact congrArg (x :: ·) ih

theorem consensusLoop_none_map_some (b : List α) :
    consensusLoop ((List.replicate b.length (none : Option α)).zip (b.map some)) = b := by
  induction b with
  | nil => rfl
  | cons x xs ih =>
    simp only [List.map_cons, List.length_cons, List.replicate_succ, List.zip_cons_cons,
      consensusLoop]
    exact congrArg (x :: ·) ih

theorem consensus_two_empty_right (a : List α) : consensus_two a [] = a := by
  cases a with
  | nil => rfl
  | cons x xs =>
    show consensusLoop ((align_two (x :: xs) []).1.zip (align_two (x :: xs) []).2) = x :: xs
    unfold align_two get_opcodes
    rw [gmb_empty_b]
    simp only [opcodesLoop]
    rw [if_neg (by simp), if_pos (by simp), if_neg (by simp)]
    simp only [List.append_nil, List.nil_append, alignLoop, alignOp]
    rw [slice_zero_length]
    simp only [Nat.sub_zero, List.append_nil]
    exact consensusLoop_map_some_none (x :: xs)

theorem consensus_two_empty_left (b : List α) : consensus_two [] b = b := by
  cases b with
  | nil => rfl
  | cons x xs =>
    show consensusLoop ((align_two [] (x :: xs)).1.zip (align_two [] (x :: xs)).2) = x :: xs
    unfold align_two get_opcodes
    rw [gmb_empty_a]
    simp only [opcodesLoop]
    rw [if_neg (by simp), if_neg (by simp), if_pos (by simp), if_neg (by simp)]
    simp only [List.append_nil, List.nil_append, alignLoop, alignOp]
    rw [slice_zero_length]
    simp only [Nat.sub_zero, List.append_nil]
    exact consensusLoop_none_map_some (x :: xs)

/-! ## `find_longest_match` on two copies of the same sequence

For `consensus_two(A, A)` we show the matcher returns the full-length match
`(0, 0, len A)`.  The first pass only ever updates `best` on the diagonal
(off-diagonal chains are never strictly longer than the diagonal chains seen
so far, even with autojunk-purged elements breaking chains), and the
extension loops then extend a diagonal best to the whole sequence. -/

/-- Length of the maximal run of non-popular elements of `a` ending just
before position `m` (the length of the diagonal `j2len` chain at step `m`). -/
def drun (a : List α) : Nat → Nat
  | 0 => 0
  | m + 1 =>
    match a[m]? with
    | some x => if popularTok a x then 0 else drun a m + 1
    | none => 0

theorem drun_le (a : List α) : ∀ m, drun a m ≤ m
  | 0 => Nat.le_refl 0
  | m + 1 => by
    have := drun_le a m
    cases ha : a[m]? with
    | none => simp only [drun, ha]; omega
    | some x =>
      simp only [drun, ha]
      split <;> omega

theorem drun_succ_nonpop {a : List α} {m : Nat} {x : α}
    (hx : a[m]? = some x) (hnp : ¬ popularTok a x) :
    drun a (m + 1) = drun a m + 1 := by
  simp only [drun, hx]
  rw [if_neg hnp]

theorem drun_succ_pop {a : List α} {m : Nat} {x : α}
    (hx : a[m]? = some x) (hp : popularTok a x) :
    drun a (m + 1) = 0 := by
  simp only [drun, hx]
  rw [if_pos hp]

theorem takeWhile_all {p : Nat → Bool} :
    ∀ {l : List Nat}, (∀ x ∈ l, p x = true) → l.takeWhile p = l
  | [], _ => rfl
  | x :: l, h => by
    rw [List.takeWhile_cons, if_pos (h x (List.mem_cons_self _ _))]
    rw [takeWhile_all (fun q hq => h q (List.mem_cons_of_mem _ hq))]

theorem filter_all {p : Nat → Bool} :
    ∀ {l : List Nat}, (∀ x ∈ l, p x = true) → l.filter p = l
  | [], _ => rfl
  | x :: l, h => by
    rw [List.filter_cons, if_pos (h x (List.mem_cons_self _ _))]
    rw [filter_all (fun q hq => h q (List.mem_cons_of_mem _ hq))]

theorem jsAt_self {a : List α} {i : Nat} {x : α} (hx : a[i]? = some x) :
    jsAt a a 0 a.length i = b2j a x := by
  unfold jsAt
  rw [hx]
  simp only
  rw [takeWhile_all (fun j hj => by
    simp only [decide_eq_true_eq]
    exact (mem_b2j hj).1)]
  rw [filter_all (fun j _ => by simp)]

theorem getElem?_some_lt {l : List α} {i : Nat} {x : α} (h : l[i]? = some x) :
    i < l.length := by
  by_contra hc
  rw [List.getElem?_eq_none (by omega)] at h
  simp at h

theorem mem_b2j_self {a : List α} {x : α} {i : Nat}
    (hx : a[i]? = some x) (hnp : ¬ popularTok a x) : i ∈ b2j a x := by
  unfold b2j
  rw [if_neg hnp]
  unfold indicesOf
  rw [List.mem_filter]
  exact ⟨List.mem_range.mpr (getElem?_some_lt hx), by simp [hx]⟩

theorem b2j_popular {b : List α} {x : α} (hp : popularTok b x) : b2j b x = [] := by
  unfold b2j
  rw [if_pos hp]

theorem innerLoop_append (old : Nat → Nat) (i : Nat) :
    ∀ (l1 l2 : List Nat) (f : Nat → Nat) (best : Nat × Nat × Nat),
    innerLoop old i (l1 ++ l2) f best =
      innerLoop old i l2 (innerLoop old i l1 f best).1 (innerLoop old i l1 f best).2
  | [], l2, f, best => rfl
  | j :: l1, l2, f, best => by
    simp only [List.cons_append, innerLoop]
    exact innerLoop_append old i l1 l2 _ _

theorem innerLoop_newf (old : Nat → Nat) (i : Nat) :
    ∀ (js : List Nat) (f : Nat → Nat) (best : Nat × Nat × Nat) (q : Nat),
    (innerLoop old i js f best).1 q =
      if q ∈ js then (if q = 0 then 0 else old (q - 1)) + 1 else f q
  | [], f, best, q => by simp [innerLoop]
  | j :: js, f, best, q => by
    simp only [innerLoop]
    rw [innerLoop_newf old i js _ _ q]
    by_cases hq : q ∈ js
    · rw [if_pos hq, if_pos (show q ∈ j :: js from List.mem_cons_of_mem _ hq)]
    · rw [if_neg hq]
      by_cases hqj : q = j
      · subst hqj
        rw [if_pos (show q ∈ q :: js from List.mem_cons_self _ _)]
        simp
      · rw [if_neg (show ¬ q ∈ j :: js from by simp [hqj, hq])]
        simp [hqj]

theorem innerLoop_best_noupdate (old : Nat → Nat) (i : Nat) :
    ∀ (js : List Nat) (f : Nat → Nat) (best : Nat × Nat × Nat),
    (∀ j ∈ js, (if j = 0 then 0 else old (j - 1)) + 1 ≤ best.2.2) →
    (innerLoop old i js f best).2 = best
  | [], _, _, _ => rfl
  | j :: js, f, best, h => by
    simp only [innerLoop]
    rw [if_neg (show ¬ best.2.2 < (if j = 0 then 0 else old (j - 1)) + 1 from by
      have := h j (List.mem_cons_self _ _)
      omega)]
    exact innerLoop_best_noupdate old i js _ best
      (fun q hq => h q (List.mem_cons_of_mem _ hq))

/-- Invariant of the first pass of `find_longest_match a a 0 n 0 n` after `m`
outer iterations: `j2len` entries are bounded by the non-popular run lengths,
the diagonal entry is exact, and the best block is a diagonal block whose size
dominates every diagonal run seen so far. -/
def selfInv (a : List α) (m : Nat) (f : Nat → Nat) (best : Nat × Nat × Nat) : Prop :=
  (∀ j, f j ≤ drun a m ∧ f j ≤ drun a (j + 1)) ∧
  (1 ≤ m → f (m - 1) = drun a m) ∧
  best.1 = best.2.1 ∧
  best.1 + best.2.2 ≤ m ∧
  (∀ m', m' ≤ m → drun a m' ≤ best.2.2)

theorem innerStep_self (a : List α) {s : Nat} {f : Nat → Nat} {best : Nat × Nat × Nat}
    (hs : s < a.length) (hinv : selfInv a s f best) :
    selfInv a (s + 1)
      (innerLoop f s (jsAt a a 0 a.length s) (fun _ => 0) best).1
      (innerLoop f s (jsAt a a 0 a.length s) (fun _ => 0) best).2 := by
  obtain ⟨hA, hB, hD1, hD2, hD3⟩ := hinv
  obtain ⟨x, hx⟩ : ∃ y, a[s]? = some y := ⟨_, List.getElem?_eq_getElem hs⟩
  have hjs := jsAt_self hx
  by_cases hpop : popularTok a x
  · -- popular token: the inner loop body is skipped entirely
    rw [hjs, b2j_popular hpop]
    have hdr : drun a (s + 1) = 0 := drun_succ_pop hx hpop
    simp only [innerLoop]
    refine ⟨?_, ?_, hD1, by omega, ?_⟩
    · intro j
      exact ⟨Nat.zero_le _, Nat.zero_le _⟩
    · intro _
      rw [hdr]
    · intro m' hm'
      rcases Nat.lt_or_ge m' (s + 1) with h | h
      · exact hD3 m' (by omega)
      · have hm'eq : m' = s + 1 := by omega
        subst hm'eq
        rw [hdr]
        exact Nat.zero_le _
  · -- non-popular token
    have hmem : s ∈ b2j a x := mem_b2j_self hx hpop
    obtain ⟨l1, l2, hsplit⟩ := List.append_of_mem hmem
    have hsorted := b2j_pairwise a x
    rw [hsplit] at hsorted
    have hppp := List.pairwise_append.mp hsorted
    have hl1lt : ∀ u ∈ l1, u < s := fun u hu => hppp.2.2 u hu s (List.mem_cons_self _ _)
    have hl2gt : ∀ v ∈ l2, s < v := (List.pairwise_cons.mp hppp.2.1).1
    have hdr : drun a (s + 1) = drun a s + 1 := drun_succ_nonpop hx hpop
    have h0 : drun a 0 = 0 := rfl
    have hkbound : ∀ j ∈ b2j a x,
        (if j = 0 then 0 else f (j - 1)) + 1 ≤ drun a (s + 1) ∧
        (if j = 0 then 0 else f (j - 1)) + 1 ≤ drun a (j + 1) := by
      intro j hj
      have hjx : a[j]? = some x := (mem_b2j hj).2
      have hdrj : drun a (j + 1) = drun a j + 1 := drun_succ_nonpop hjx hpop
      by_cases hj0 : j = 0
      · subst hj0
        rw [if_pos rfl]
        constructor <;> omega
      · rw [if_neg hj0]
        have h1 := (hA (j - 1)).1
        have h2 := (hA (j - 1)).2
        have hj1 : j - 1 + 1 = j := by omega
        rw [hj1] at h2
        constructor <;> omega
    have hks : (if s = 0 then 0 else f (s - 1)) + 1 = drun a (s + 1) := by
      by_cases hs0 : s = 0
      · subst hs0
        rw [if_pos rfl]
        omega
      · rw [if_neg hs0]
        have := hB (by omega)
        omega
    -- the value view of the new `j2len`
    have hFview : ∀ q, (innerLoop f s (jsAt a a 0 a.length s) (fun _ => 0) best).1 q =
        if q ∈ b2j a x then (if q = 0 then 0 else f (q - 1)) + 1 else 0 := by
      intro q
      rw [hjs]
      exact innerLoop_newf f s (b2j a x) _ best q
    -- the best block after the step
    have hph1 : (innerLoop f s l1 (fun _ => 0) best).2 = best := by
      apply innerLoop_best_noupdate
      intro j hj
      have hjmem : j ∈ b2j a x := by
        rw [hsplit]
        exact List.mem_append_left _ hj
      have hk := (hkbound j hjmem).2
      have hjlt := hl1lt j hj
      have := hD3 (j + 1) (by omega)
      omega
    by_cases hupd : best.2.2 < (if s = 0 then 0 else f (s - 1)) + 1
    · -- the diagonal step updates the best block
      have hBval : (innerLoop f s (jsAt a a 0 a.length s) (fun _ => 0) best).2 =
          (s + 1 - ((if s = 0 then 0 else f (s - 1)) + 1),
           s + 1 - ((if s = 0 then 0 else f (s - 1)) + 1),
           (if s = 0 then 0 else f (s - 1)) + 1) := by
        rw [hjs, hsplit, innerLoop_append, hph1]
        simp only [innerLoop]
        rw [if_pos hupd]
        apply innerLoop_best_noupdate
        intro j hj
        have hjmem : j ∈ b2j a x := by
          rw [hsplit]
          exact List.mem_append_right _ (List.mem_cons_of_mem _ hj)
        have hk := (hkbound j hjmem).1
        simp only []
        omega
      refine ⟨?_, ?_, ?_, ?_, ?_⟩
      · intro j
        rw [hFview j]
        by_cases hj : j ∈ b2j a x
        · rw [if_pos hj]
          exact hkbound j hj
        · rw [if_neg hj]
          exact ⟨Nat.zero_le _, Nat.zero_le _⟩
      · intro _
        have hsub : s + 1 - 1 = s := by omega
        rw [hsub, hFview s, if_pos hmem, hks]
      · rw [hBval]
      · rw [hBval]
        have hd1 := drun_le a (s + 1)
        simp only []
        omega
      · intro m' hm'
        rw [hBval]
        simp only []
        rcases Nat.lt_or_ge m' (s + 1) with h | h
        · have := hD3 m' (by omega)
          omega
        · have hm'eq : m' = s + 1 := by omega
          subst hm'eq
          omega
    · -- the best block is already at least as large as the diagonal run
      have hBval : (innerLoop f s (jsAt a a 0 a.length s) (fun _ => 0) best).2 = best := by
        rw [hjs, hsplit, innerLoop_append, hph1]
        simp only [innerLoop]
        rw [if_neg hupd]
        apply innerLoop_best_noupdate
        intro j hj
        have hjmem : j ∈ b2j a x := by
          rw [hsplit]
          exact List.mem_append_right _ (List.mem_cons_of_mem _ hj)
        have hk := (hkbound j hjmem).1
        omega
      refine ⟨?_, ?_, ?_, ?_, ?_⟩
      · intro j
        rw [hFview j]
        by_cases hj : j ∈ b2j a x
        · rw [if_pos hj]
          exact hkbound j hj
        · rw [if_neg hj]
          exact ⟨Nat.zero_le _, Nat.zero_le _⟩
      · intro _
        have hsub : s + 1 - 1 = s := by omega
        rw [hsub, hFview s, if_pos hmem, hks]
      · rw [hBval]
        exact hD1
      · rw [hBval]
        omega
      · intro m' hm'
        rw [hBval]
        rcases Nat.lt_or_ge m' (s + 1) with h | h
        · exact hD3 m' (by omega)
        · have hm'eq : m' = s + 1 := by omega
          subst hm'eq
          omega


theorem outerLoop_self (a : List α) :
    ∀ (len s : Nat) (f : Nat → Nat) (best : Nat × Nat × Nat),
    s + len ≤ a.length → selfInv a s f best →
    (outerLoop a a 0 a.length (List.range' s len) f best).1 =
      (outerLoop a a 0 a.length (List.range' s len) f best).2.1 ∧
    (outerLoop a a 0 a.length (List.range' s len) f best).1 +
      (outerLoop a a 0 a.length (List.range' s len) f best).2.2 ≤ s + len
  | 0, s, f, best, hlen, hinv => by
    rw [show List.range' s 0 = [] from rfl]
    simp only [outerLoop]
    refine ⟨hinv.2.2.1, ?_⟩
    have := hinv.2.2.2.1
    omega
  | len + 1, s, f, best, hlen, hinv => by
    rw [List.range'_succ s len 1]
    simp only [outerLoop]
    have hstep := innerStep_self a (show s < a.length by omega) hinv
    have hrec := outerLoop_self a len (s + 1) _ _ (by omega) hstep
    rw [show s + (len + 1) = s + 1 + len from by omega]
    exact hrec

theorem selfInv_init (a : List α) : selfInv a 0 (fun _ => 0) (0, 0, 0) := by
  refine ⟨?_, ?_, rfl, ?_, ?_⟩
  · intro j
    exact ⟨Nat.zero_le _, Nat.zero_le _⟩
  · intro h
    omega
  · exact Nat.le_refl 0
  · intro m' hm'
    have : m' = 0 := by omega
    subst this
    exact Nat.le_refl 0

theorem extendLo_self_diag (a : List α) :
    ∀ (d bs : Nat), d + bs ≤ a.length →
    extendLo a a 0 0 false d (d, d, bs) = (0, 0, bs + d)
  | 0, bs, _ => rfl
  | t + 1, bs, h => by
    have ht : t < a.length := by omega
    simp only [extendLo]
    split
    case _ hcond =>
      rw [show t + 1 - 1 = t from by omega]
      rw [extendLo_self_diag a t (bs + 1) (by omega)]
      rw [show bs + 1 + t = bs + (t + 1) from by omega]
    case _ hcond =>
      exfalso
      apply hcond
      rw [show t + 1 - 1 = t from by omega, List.getElem?_eq_getElem ht]
      simp [bjunk]

theorem extendHi_self_diag (a : List α) :
    ∀ (fuel k : Nat), k ≤ a.length → a.length ≤ fuel + k →
    extendHi a a a.length a.length false fuel (0, 0, k) = (0, 0, a.length)
  | 0, k, hk, hfuel => by
    rw [show k = a.length from by omega]
    rfl
  | fuel + 1, k, hk, hfuel => by
    by_cases hlt : k < a.length
    · simp only [extendHi]
      split
      case _ hcond =>
        exact extendHi_self_diag a fuel (k + 1) (by omega) (by omega)
      case _ hcond =>
        exfalso
        apply hcond
        rw [show (0 : Nat) + k = k from by omega, List.getElem?_eq_getElem hlt]
        simp [bjunk]
        omega
    · have hkeq : k = a.length := by omega
      subst hkeq
      simp only [extendHi]
      split
      case _ hcond =>
        exfalso
        simp only [Bool.and_eq_true, decide_eq_true_eq] at hcond
        omega
      case _ hcond => rfl

theorem extendLo_junk_id (a b : List α) (alo blo : Nat) :
    ∀ (fuel : Nat) (p : Nat × Nat × Nat), extendLo a b alo blo true fuel p = p
  | 0, _ => rfl
  | fuel + 1, (bi, bj, bs) => by
    simp only [extendLo]
    split
    case _ hcond =>
      exfalso
      simp only [Bool.and_eq_true] at hcond
      have := hcond.1.2
      cases hb : b[bj - 1]? with
      | none => rw [hb] at this; simp [Option.any] at this
      | some y => rw [hb] at this; simp [Option.any, bjunk] at this
    case _ hcond => rfl

theorem extendHi_junk_id (a b : List α) (ahi bhi : Nat) :
    ∀ (fuel : Nat) (p : Nat × Nat × Nat), extendHi a b ahi bhi true fuel p = p
  | 0, _ => rfl
  | fuel + 1, (bi, bj, bs) => by
    simp only [extendHi]
    split
    case _ hcond =>
      exfalso
      simp only [Bool.and_eq_true] at hcond
      have := hcond.1.2
      cases hb : b[bj + bs]? with
      | none => rw [hb] at this; simp [Option.any] at this
      | some y => rw [hb] at this; simp [Option.any, bjunk] at this
    case _ hcond => rfl

theorem fml_self (a : List α) :
    find_longest_match a a 0 a.length 0 a.length = (0, 0, a.length) := by
  have hfirst := outerLoop_self a a.length 0 (fun _ => 0) (0, 0, 0) (by omega) (selfInv_init a)
  simp only [find_longest_match, Nat.sub_zero] at hfirst ⊢
  rcases hp0 : outerLoop a a 0 a.length (List.range' 0 a.length) (fun _ => 0) (0, 0, 0)
    with ⟨d, dj, bs⟩
  rw [hp0] at hfirst
  have hdiag : d = dj := hfirst.1
  have hbound0 : d + bs ≤ 0 + a.length := hfirst.2
  have hbound : d + bs ≤ a.length := by omega
  subst hdiag
  simp only []
  rw [extendLo_self_diag a d bs hbound]
  rw [extendHi_self_diag a a.length (bs + d) (by omega) (by omega)]
  rw [extendLo_junk_id, extendHi_junk_id]


theorem gmb_self_cons (a : List α) (h : a ≠ []) :
    get_matching_blocks a a = [(0, 0, a.length), (a.length, a.length, 0)] := by
  have hlen : a.length ≠ 0 := by
    intro hc
    exact h (List.length_eq_zero.mp hc)
  unfold get_matching_blocks
  simp only [gmbLoop, fml_self]
  rw [if_pos (show ((0 : Nat), (0 : Nat), a.length).2.2 ≠ 0 from hlen)]
  rw [if_neg (show ¬((0 : Nat) < 0 ∧ (0 : Nat) < 0) from by omega)]
  rw [if_neg (show ¬((0 : Nat) + a.length < a.length ∧ (0 : Nat) + a.length < a.length) from
    by omega)]
  simp only [List.append_nil, List.nil_append]
  rw [gmbLoop_nil_queue]
  simp only [List.insertionSort, List.orderedInsert]
  simp only [nonAdjacentLoop]
  simp [hlen]

theorem align_two_self (a : List α) : align_two a a = (a.map some, a.map some) := by
  by_cases ha : a = []
  · subst ha
    rfl
  · unfold align_two get_opcodes
    rw [gmb_self_cons a ha]
    simp only [opcodesLoop]
    rw [if_neg (show ¬((0 : Nat) < 0 ∧ (0 : Nat) < 0) from by omega)]
    rw [if_neg (show ¬((0 : Nat) < 0) from by omega)]
    rw [if_neg (show ¬((0 : Nat) < 0) from by omega)]
    rw [if_pos (show a.length ≠ 0 from fun hc => ha (List.length_eq_zero.mp hc))]
    rw [if_neg (show ¬((0 : Nat) + a.length < a.length ∧
      (0 : Nat) + a.length < a.length) from by omega)]
    rw [if_neg (show ¬((0 : Nat) + a.length < a.length) from by omega)]
    rw [if_neg (show ¬((0 : Nat) + a.length < a.length) from by omega)]
    rw [if_neg (show ¬((0 : Nat) ≠ 0) from by omega)]
    simp only [List.nil_append, List.append_nil, alignLoop, alignOp]
    rw [Nat.zero_add, slice_zero_length]


theorem consensusLoop_map_diag :
    ∀ (l : List α), consensusLoop (l.map fun t => (some t, some t)) = l
  | [] => rfl
  | y :: ys => by
    simp only [List.map_cons, consensusLoop]
    rw [if_pos trivial]
    rw [consensusLoop_map_diag ys]

theorem mismatchLoop_map_diag :
    ∀ (l : List α) (base : Nat), mismatchLoop base (l.map fun t => (some t, some t)) = []
  | [], _ => rfl
  | y :: ys, base => by
    simp only [List.map_cons, mismatchLoop]
    rw [if_pos trivial]
    exact mismatchLoop_map_diag ys (base + 1)

theorem consensus_two_self (a : List α) : consensus_two a a = a := by
  unfold consensus_two
  rw [align_two_self]
  simp only []
  rw [List.zip_map']
  exact consensusLoop_map_diag a

theorem mismatchEvents_self (a : List α) : mismatchEvents a a = [] := by
  unfold mismatchEvents
  rw [align_two_self]
  simp only []
  rw [List.zip_map']
  exact mismatchLoop_map_diag a 0


/-! ## Helper: positional reading of a zip -/

theorem getElem?_zip_both {β : Type} :
    ∀ {A B : List β} {i : Nat} {c : β × β},
    (A.zip B)[i]? = some c → A[i]? = some c.1 ∧ B[i]? = some c.2
  | [], _, i, c, h => by simp at h
  | _ :: _, [], i, c, h => by simp at h
  | x :: A, y :: B, 0, c, h => by
    simp only [List.zip_cons_cons, List.getElem?_cons_zero, Option.some.injEq] at h
    subst h
    exact ⟨List.getElem?_cons_zero, List.getElem?_cons_zero⟩
  | x :: A, y :: B, i + 1, c, h => by
    simp only [List.zip_cons_cons, List.getElem?_cons_succ] at h ⊢
    exact getElem?_zip_both h

/-! ## The claims -/

/-- C1: For every pair of token sequences `A` and `B` (any length, including
empty, duplicates allowed), the two aligned sequences returned by
`align_two A B` have equal length: `len(aligned_a) == len(aligned_b)`. -/
theorem claim_C1 (A B : List α) :
    (align_two A B).1.length = (align_two A B).2.length :=
  (align_two_spec A B).1

/-- C2: For every pair of token sequences `A` and `B` (gap-free by the type:
the gap sentinel `none` is not a token value), removing all gap markers from
`align_two A B`'s first output, reading positions in order, reconstructs
exactly `A`, and doing the same to the second output reconstructs exactly `B`. -/
theorem claim_C2 (A B : List α) :
    (align_two A B).1.filterMap id = A ∧ (align_two A B).2.filterMap id = B :=
  ⟨(align_two_spec A B).2.1, (align_two_spec A B).2.2.1⟩

/-- C3: In every aligned column where both sides hold tokens and the tokens
differ, `consensus_two` emits the token from the left sequence (the loop
turns a `(some t1, some t2)` column with `t1 ≠ t2` into an emitted `t1`),
and surfaces a diagnostic naming the column index and both conflicting
tokens; in particular `consensus_two ["x"] ["y"] = ["x"]` with the
diagnostic `(0, "x", "y")`. -/
theorem claim_C3 :
    (∀ (A B : List α) (idx : Nat) (t1 t2 : α),
      ((align_two A B).1.zip (align_two A B).2)[idx]? = some (some t1, some t2) →
      t1 ≠ t2 → (idx, t1, t2) ∈ mismatchEvents A B) ∧
    (∀ (rest : List (Option α × Option α)) (t1 t2 : α), t1 ≠ t2 →
      consensusLoop ((some t1, some t2) :: rest) = t1 :: consensusLoop rest) ∧
    consensus_two ["x"] ["y"] = ["x"] ∧
    mismatchEvents ["x"] ["y"] = [(0, "x", "y")] := by
  refine ⟨?_, ?_, ?_, ?_⟩
  · intro A B idx t1 t2 h hne
    have h2 := mismatchLoop_mem _ 0 idx t1 t2 h hne
    rw [show (0 : Nat) + idx = idx from by omega] at h2
    exact h2
  · intro rest t1 t2 hne
    simp only [consensusLoop]
    rw [if_neg hne]
  · rfl
  · rfl

/-- C3 witness: the claim applied at the concrete mismatch column
`(some "x", some "y")` of `align_two ["x"] ["y"]`. -/
theorem claim_C3_witness :
    (0, "x", "y") ∈ mismatchEvents ["x"] ["y"] ∧
    consensusLoop [(some "x", some "y")] = ["x"] := by
  constructor
  · exact (claim_C3 (α := String)).1 ["x"] ["y"] 0 "x" "y" rfl (by decide)
  · exact (claim_C3 (α := String)).2.1 [] "x" "y" (by decide)

/-- C4: For every three token sequences, the three-way consensus equals the
left-to-right fold of the pairwise primitive. -/
theorem claim_C4 (A B C : List α) :
    consensus_three A B C = consensus_two (consensus_two A B) C := rfl

set_option maxHeartbeats 4000000 in
/-- C5: For `A = ["the","cat","sat"]`, `B = ["the","cat","sit"]`,
`C = ["a","cat","sat"]`, the three-way consensus returns exactly
`["the","cat","sat"]`. -/
theorem claim_C5 :
    consensus_three ["the", "cat", "sat"] ["the", "cat", "sit"] ["a", "cat", "sat"]
      = ["the", "cat", "sat"] := by
  decide

/-- C7: For every pair of gap-free input sequences, no column of
`align_two A B` holds a gap marker on both sides simultaneously (the zipped
column list contains no `(none, none)` entry), so the reconciler's defensive
skip branch for a gap-gap column is unreachable on Aligner-produced input. -/
theorem claim_C7 (A B : List α) :
    ((align_two A B).1.zip (align_two A B).2).count (none, none) = 0 := by
  rw [List.count_eq_zero]
  intro hmem
  obtain ⟨idx, hidx⟩ := List.get?_of_mem hmem
  rw [List.get?_eq_getElem?] at hidx
  have h := getElem?_zip_both hidx
  exact (align_two_spec A B).2.2.2 idx ⟨h.1, h.2⟩

/-- C8: For every gap-free token sequence `A`, reconciling `A` with itself
returns `A` unchanged and emits no mismatch diagnostics. -/
theorem claim_C8 (A : List α) :
    consensus_two A A = A ∧ mismatchEvents A A = [] :=
  ⟨consensus_two_self A, mismatchEvents_self A⟩

/-- C9: The empty sequence is a two-sided identity for pairwise
reconciliation: `consensus_two A [] = A` and `consensus_two [] A = A`. -/
theorem claim_C9 (A : List α) :
    consensus_two A [] = A ∧ consensus_two [] A = A :=
  ⟨consensus_two_empty_right A, consensus_two_empty_left A⟩

/-- C10: The left input is always fully preserved: the output positions of
columns where `A` holds a token read back exactly `A`, `A` is a subsequence
(in order) of `consensus_two A B`, and therefore
`len A ≤ len (consensus_two A B)` — only right-side tokens can be dropped. -/
theorem claim_C10 (A B : List α) :
    ((align_two A B).1.zip (align_two A B).2).filterMap Prod.fst = A ∧
    List.Sublist A (consensus_two A B) ∧
    A.length ≤ (consensus_two A B).length := by
  have hspec := align_two_spec A B
  have hcols : ((align_two A B).1.zip (align_two A B).2).filterMap Prod.fst = A := by
    rw [filterMap_fst_zip hspec.1, hspec.2.1]
  have hdef : consensus_two A B =
      consensusLoop ((align_two A B).1.zip (align_two A B).2) := rfl
  have hsub0 := consensusLoop_sublist ((align_two A B).1.zip (align_two A B).2)
  rw [hcols] at hsub0
  have hsub : List.Sublist A (consensus_two A B) := by
    rw [hdef]
    exact hsub0
  exact ⟨hcols, hsub, hsub.length_le⟩

end TranscribeConsensus
